import Mathlib

/-!
Verification of the forest propagation engine of `python-propagator`.

The engine operates on a flat table of records, each with a unique `id`, a
`parent` (downstream) reference, and a list of value columns addressed by
position.  The repository ships the engine's test suite
(`propagator/tests/test_analysis.py`) and the GIS utility module
(`propagator/utils/gis.py`); the engine module `propagator/analysis.py`
itself is not among the provided sources, so its operations are modelled
from the specification and validated against the concrete input/expected
pairs of the in-repo tests.
-/

namespace Propagator

/-- One row of the forest table: a unique `id`, a `parent` (downstream)
reference — either another record's id or a terminal sentinel — and the
value columns, addressed positionally. -/
structure Record where
  id : String
  parent : String
  values : List String
deriving DecidableEq

/-- Value of record `r` in value column `c` (positional). -/
def getVal (r : Record) (c : Nat) : String :=
  r.values.getD c ""

/-- Record `r` with value column `c` rewritten to `v`. -/
def setVal (r : Record) (c : Nat) (v : String) : Record :=
  { r with values := r.values.set c v }

/-- The list of ids of a table, in row order. -/
def ids (tbl : List Record) : List String :=
  tbl.map (·.id)

/-- First record of the table carrying the given id (the table invariant
makes ids unique, so it is the record with that id). -/
def lookup (tbl : List Record) (i : String) : Option Record :=
  tbl.find? (fun r => r.id == i)

/-- `reachesSentinel tbl fuel i = true` when following parent references
from `i` hits a terminal sentinel (an identifier that is no record's id)
within `fuel` steps. -/
def reachesSentinel (tbl : List Record) : Nat → String → Bool
  | 0, i => (lookup tbl i).isNone
  | fuel + 1, i =>
    match lookup tbl i with
    | none => true
    | some r => reachesSentinel tbl fuel r.parent

/-- The forest invariant of the data model: ids are unique across the
table, and following parent references from any record reaches a terminal
sentinel in finitely many steps (no cycles); `tbl.length` steps always
suffice for an acyclic table. -/
def forestInv (tbl : List Record) : Prop :=
  (ids tbl).Nodup ∧ ∀ r ∈ tbl, reachesSentinel tbl tbl.length r.id = true

instance (tbl : List Record) : Decidable (forestInv tbl) := by
  unfold forestInv; infer_instance

/-- Modelled from the spec: `_find_downstream_scores` of the absent
`propagator/analysis.py` — "find the nearest valid downstream value for a
given record and column".  Starting at the record identified by `i`, walk
parent references, skipping every record whose value in column `c` equals
`ignored`, and return the whole first record with a valid value; `none`
when a terminal sentinel (no matching id) is reached first.  The walk is
fuelled; any fuel beyond the longest chain is equivalent. -/
def find_downstream_scores (tbl : List Record) (c : Nat) (ignored : String) :
    Nat → String → Option Record
  | 0, _ => none
  | fuel + 1, i =>
    match lookup tbl i with
    | none => none
    | some r =>
      if getVal r c ≠ ignored then some r
      else find_downstream_scores tbl c ignored fuel r.parent

/-- The records visited by walking parent references from id `i` through
the original table, in walk order, ending when a terminal sentinel (an id
with no record) is reached or fuel runs out. -/
def chainRecs (tbl : List Record) : Nat → String → List Record
  | 0, _ => []
  | fuel + 1, i =>
    match lookup tbl i with
    | none => []
    | some r => r :: chainRecs tbl fuel r.parent

/-- Number of records on the parent chain from `i` to its sentinel, read
at a fuel that exhausts every chain of an acyclic table. -/
def chainLen (tbl : List Record) (i : String) : Nat :=
  (chainRecs tbl (tbl.length + 1) i).length

/-- Modelled from the spec: `propagate_scores` of the absent
`propagator/analysis.py` (§4.3 Nearest-Ancestor Value Propagation).  A
record keeps its own value in column `c` when it differs from `ignored`;
otherwise the value of the nearest valid record on the parent chain
starting at its parent — read from the original, unmodified table — is
substituted; when no valid record exists downstream the value stays
`ignored`.  `propRow` is the per-record resolution, `propagate_scores`
maps it over the table. -/
def propRow (tbl : List Record) (c : Nat) (ignored : String) (r : Record) : Record :=
  if getVal r c ≠ ignored then r
  else
    match find_downstream_scores tbl c ignored (tbl.length + 1) r.parent with
    | some q => setVal r c (getVal q c)
    | none => r

/-- Propagation of one value column over the whole table: every row is
resolved against the original table. -/
def propagate_scores (tbl : List Record) (c : Nat) (ignored : String) : List Record :=
  tbl.map (propRow tbl c ignored)

/-- One pass of the upstream-trace fixpoint (§4.1): extend the membership
set `S` with the id of every record whose parent is already in `S` (set
semantics: ids already present are not re-added). -/
def growStep (tbl : List Record) (S : List String) : List String :=
  S ++ (tbl.filter (fun r => S.contains r.parent && !(S.contains r.id))).map (·.id)

/-- The membership set of the upstream trace at its fixpoint: `tbl.length`
passes always suffice, since a non-fixed pass adds at least one table id. -/
def traceSet (tbl : List Record) (start : String) : List String :=
  (growStep tbl)^[tbl.length] [start]

/-- Written from the spec's §4.1 words for comparison with the behaviour
the in-repo tests pin down: grow a membership set from `{start}` to its
fixpoint, then filter the table — preserving row order — to the records
whose id is in the fixpoint set, excluding `start` itself. -/
def trace_upstream_rowOrder (tbl : List Record) (start : String) : List Record :=
  tbl.filter (fun r => (traceSet tbl start).contains r.id && r.id != start)

/-- Modelled from the spec: `trace_upstream` of the absent
`propagator/analysis.py` (§4.1 Upstream Trace), with the traversal order
pinned by the in-repo tests (`Test_trace_upstream.expected_left`): the
records transitively upstream of `start`, accumulated depth-first — each
direct upstream neighbour (in table order) followed immediately by its own
upstream subtree.  The recursion is fuelled; `tbl.length + 1` exceeds any
chain depth of an acyclic table. -/
def traceUp (tbl : List Record) : Nat → String → List Record
  | 0, _ => []
  | fuel + 1, i =>
    (tbl.filter (fun r => r.parent == i)).flatMap (fun r => r :: traceUp tbl fuel r.id)

/-- Upstream trace as the engine performs it (depth-first accumulation). -/
def trace_upstream (tbl : List Record) (start : String) : List Record :=
  traceUp tbl (tbl.length + 1) start

/-- One pass of the orphan-pruning fixpoint (§4.4): keep exactly the
records whose parent is the bottom sentinel or a currently retained id. -/
def pruneStep (bottom : String) (S : List Record) : List Record :=
  S.filter (fun r => r.parent == bottom || (ids S).contains r.parent)

/-- Modelled from the spec: `remove_orphan_subcatchments` of the absent
`propagator/analysis.py` (§4.4 Orphan Pruning).  Repeatedly remove every
record whose parent is neither `bottom` nor a retained id until a pass
removes nothing; `tbl.length` passes always reach the fixpoint, since a
non-fixed pass removes at least one row. -/
def remove_orphan_subcatchments (tbl : List Record) (bottom : String) : List Record :=
  (pruneStep bottom)^[tbl.length] tbl

/-- Modelled from the spec: `mark_edges` of the absent
`propagator/analysis.py` (§4.5 Edge Re-marking).  Rewrite the parent of
every record whose parent matches no id present in the table to the
sentinel `edge`; a single pass, removing no rows. -/
def markRow (present : List String) (edge : String) (r : Record) : Record :=
  if present.contains r.parent then r else { r with parent := edge }

/-- Edge re-marking over the whole table; `present` is the table's own id
list. -/
def mark_edges (tbl : List Record) (edge : String) : List Record :=
  tbl.map (markRow (ids tbl) edge)

/-- The `SIMPLE_SUBCATCHMENTS` fixture of the in-repo test suite
(`propagator/tests/test_analysis.py`): columns ID, DS_ID, Cu, Pb. -/
def simpleSubcatchments : List Record := [
  ⟨"A1", "Ocean", ["A1_x", "A1_y"]⟩, ⟨"A2", "Ocean", ["A2_x", "A2_y"]⟩,
  ⟨"B1", "A1", ["None", "B1_y"]⟩, ⟨"B2", "A1", ["B2_x", "None"]⟩,
  ⟨"B3", "A2", ["B3_x", "B3_y"]⟩, ⟨"C1", "B2", ["C1_x", "None"]⟩,
  ⟨"C2", "B3", ["None", "None"]⟩, ⟨"C3", "B3", ["None", "None"]⟩,
  ⟨"D1", "C1", ["None", "None"]⟩, ⟨"D2", "C3", ["None", "D2_y"]⟩,
  ⟨"E1", "D1", ["None", "E1_y"]⟩, ⟨"E2", "D2", ["None", "None"]⟩,
  ⟨"F1", "E1", ["F1_x", "None"]⟩, ⟨"F2", "E1", ["None", "None"]⟩,
  ⟨"F3", "E1", ["F3_x", "None"]⟩, ⟨"G1", "F1", ["None", "None"]⟩,
  ⟨"G2", "F3", ["None", "None"]⟩, ⟨"H1", "G2", ["None", "None"]⟩]

/-- The `COMPLEX_SUBCATCHMENTS` fixture of the in-repo test suite:
columns ID, DS_ID, Cu. -/
def complexSubcatchments : List Record := [
  ⟨"A1", "Ocean", ["A1Cu"]⟩, ⟨"A2", "Ocean", ["A2Cu"]⟩, ⟨"B1", "A1", ["None"]⟩,
  ⟨"B2", "A1", ["None"]⟩, ⟨"B3", "A2", ["None"]⟩, ⟨"C1", "B2", ["None"]⟩,
  ⟨"D1", "C1", ["D1Cu"]⟩, ⟨"C2", "B3", ["None"]⟩, ⟨"C3", "B3", ["C3Cu"]⟩,
  ⟨"D2", "C3", ["None"]⟩, ⟨"E2", "D2", ["None"]⟩, ⟨"E1", "D1", ["None"]⟩,
  ⟨"F1", "E1", ["None"]⟩, ⟨"F2", "E1", ["F2Cu"]⟩, ⟨"F3", "E1", ["None"]⟩,
  ⟨"G1", "F1", ["None"]⟩, ⟨"G2", "F3", ["None"]⟩, ⟨"H1", "F3", ["H1Cu"]⟩,
  ⟨"I1", "H1", ["None"]⟩, ⟨"J1", "I1", ["None"]⟩, ⟨"J2", "I1", ["J2Cu"]⟩,
  ⟨"K2", "J2", ["None"]⟩, ⟨"K1", "J2", ["None"]⟩, ⟨"L1", "K1", ["None"]⟩]

/-- Expected output of `test_propagate_scores_complex_1_columns`:
propagating the Cu column of the complex fixture. -/
def complexExpected : List Record := [
  ⟨"A1", "Ocean", ["A1Cu"]⟩, ⟨"A2", "Ocean", ["A2Cu"]⟩, ⟨"B1", "A1", ["A1Cu"]⟩,
  ⟨"B2", "A1", ["A1Cu"]⟩, ⟨"B3", "A2", ["A2Cu"]⟩, ⟨"C1", "B2", ["A1Cu"]⟩,
  ⟨"D1", "C1", ["D1Cu"]⟩, ⟨"C2", "B3", ["A2Cu"]⟩, ⟨"C3", "B3", ["C3Cu"]⟩,
  ⟨"D2", "C3", ["C3Cu"]⟩, ⟨"E2", "D2", ["C3Cu"]⟩, ⟨"E1", "D1", ["D1Cu"]⟩,
  ⟨"F1", "E1", ["D1Cu"]⟩, ⟨"F2", "E1", ["F2Cu"]⟩, ⟨"F3", "E1", ["D1Cu"]⟩,
  ⟨"G1", "F1", ["D1Cu"]⟩, ⟨"G2", "F3", ["D1Cu"]⟩, ⟨"H1", "F3", ["H1Cu"]⟩,
  ⟨"I1", "H1", ["H1Cu"]⟩, ⟨"J1", "I1", ["H1Cu"]⟩, ⟨"J2", "I1", ["J2Cu"]⟩,
  ⟨"K2", "J2", ["J2Cu"]⟩, ⟨"K1", "J2", ["J2Cu"]⟩, ⟨"L1", "K1", ["J2Cu"]⟩]

/-- Expected output of `test_propagate_scores_simple_2_columns`:
propagating first the Pb column, then the Cu column, of the simple
fixture. -/
def simpleBothExpected : List Record := [
  ⟨"A1", "Ocean", ["A1_x", "A1_y"]⟩, ⟨"A2", "Ocean", ["A2_x", "A2_y"]⟩,
  ⟨"B1", "A1", ["A1_x", "B1_y"]⟩, ⟨"B2", "A1", ["B2_x", "A1_y"]⟩,
  ⟨"B3", "A2", ["B3_x", "B3_y"]⟩, ⟨"C1", "B2", ["C1_x", "A1_y"]⟩,
  ⟨"C2", "B3", ["B3_x", "B3_y"]⟩, ⟨"C3", "B3", ["B3_x", "B3_y"]⟩,
  ⟨"D1", "C1", ["C1_x", "A1_y"]⟩, ⟨"D2", "C3", ["B3_x", "D2_y"]⟩,
  ⟨"E1", "D1", ["C1_x", "E1_y"]⟩, ⟨"E2", "D2", ["B3_x", "D2_y"]⟩,
  ⟨"F1", "E1", ["F1_x", "E1_y"]⟩, ⟨"F2", "E1", ["C1_x", "E1_y"]⟩,
  ⟨"F3", "E1", ["F3_x", "E1_y"]⟩, ⟨"G1", "F1", ["F1_x", "E1_y"]⟩,
  ⟨"G2", "F3", ["F3_x", "E1_y"]⟩, ⟨"H1", "G2", ["F3_x", "E1_y"]⟩]

/-- `SIMPLE_SUBCATCHMENTS` with rows E1 and C3 removed, as built by
`doctor_subcatchments` in the tests. -/
def doctoredSubcatchments : List Record := [
  ⟨"A1", "Ocean", ["A1_x", "A1_y"]⟩, ⟨"A2", "Ocean", ["A2_x", "A2_y"]⟩,
  ⟨"B1", "A1", ["None", "B1_y"]⟩, ⟨"B2", "A1", ["B2_x", "None"]⟩,
  ⟨"B3", "A2", ["B3_x", "B3_y"]⟩, ⟨"C1", "B2", ["C1_x", "None"]⟩,
  ⟨"C2", "B3", ["None", "None"]⟩, ⟨"D1", "C1", ["None", "None"]⟩,
  ⟨"D2", "C3", ["None", "D2_y"]⟩, ⟨"E2", "D2", ["None", "None"]⟩,
  ⟨"F1", "E1", ["F1_x", "None"]⟩, ⟨"F2", "E1", ["None", "None"]⟩,
  ⟨"F3", "E1", ["F3_x", "None"]⟩, ⟨"G1", "F1", ["None", "None"]⟩,
  ⟨"G2", "F3", ["None", "None"]⟩, ⟨"H1", "G2", ["None", "None"]⟩]

/-- Expected output of `test_remove_orphan_subcatchments` on the doctored
fixture with bottom id Ocean. -/
def orphansExpected : List Record := [
  ⟨"A1", "Ocean", ["A1_x", "A1_y"]⟩, ⟨"A2", "Ocean", ["A2_x", "A2_y"]⟩,
  ⟨"B1", "A1", ["None", "B1_y"]⟩, ⟨"B2", "A1", ["B2_x", "None"]⟩,
  ⟨"B3", "A2", ["B3_x", "B3_y"]⟩, ⟨"C1", "B2", ["C1_x", "None"]⟩,
  ⟨"C2", "B3", ["None", "None"]⟩, ⟨"D1", "C1", ["None", "None"]⟩]

/-- Expected output of `test_mark_edges` on the doctored fixture with edge
id EDGE. -/
def markEdgesExpected : List Record := [
  ⟨"A1", "EDGE", ["A1_x", "A1_y"]⟩, ⟨"A2", "EDGE", ["A2_x", "A2_y"]⟩,
  ⟨"B1", "A1", ["None", "B1_y"]⟩, ⟨"B2", "A1", ["B2_x", "None"]⟩,
  ⟨"B3", "A2", ["B3_x", "B3_y"]⟩, ⟨"C1", "B2", ["C1_x", "None"]⟩,
  ⟨"C2", "B3", ["None", "None"]⟩, ⟨"D1", "C1", ["None", "None"]⟩,
  ⟨"D2", "EDGE", ["None", "D2_y"]⟩, ⟨"E2", "D2", ["None", "None"]⟩,
  ⟨"F1", "EDGE", ["F1_x", "None"]⟩, ⟨"F2", "EDGE", ["None", "None"]⟩,
  ⟨"F3", "EDGE", ["F3_x", "None"]⟩, ⟨"G1", "F1", ["None", "None"]⟩,
  ⟨"G2", "F3", ["None", "None"]⟩, ⟨"H1", "G2", ["None", "None"]⟩]

/-- Expected output of `Test_trace_upstream.test_left_fork`: the records
upstream of A1, in the order the engine emits them. -/
def expectedLeftFork : List Record := [
  ⟨"B1", "A1", ["None", "B1_y"]⟩, ⟨"B2", "A1", ["B2_x", "None"]⟩,
  ⟨"C1", "B2", ["C1_x", "None"]⟩, ⟨"D1", "C1", ["None", "None"]⟩,
  ⟨"E1", "D1", ["None", "E1_y"]⟩, ⟨"F1", "E1", ["F1_x", "None"]⟩,
  ⟨"G1", "F1", ["None", "None"]⟩, ⟨"F2", "E1", ["None", "None"]⟩,
  ⟨"F3", "E1", ["F3_x", "None"]⟩, ⟨"G2", "F3", ["None", "None"]⟩,
  ⟨"H1", "G2", ["None", "None"]⟩]

/-- Expected output of `Test_trace_upstream.test_right_fork`: the records
upstream of A2. -/
def expectedRightFork : List Record := [
  ⟨"B3", "A2", ["B3_x", "B3_y"]⟩, ⟨"C2", "B3", ["None", "None"]⟩,
  ⟨"C3", "B3", ["None", "None"]⟩, ⟨"D2", "C3", ["None", "D2_y"]⟩,
  ⟨"E2", "D2", ["None", "None"]⟩]

/-- The four-row chain of the spec's concrete propagation scenario:
`A1→Ocean(Cu=A1Cu)`, `B1→A1(Cu=None)`, `B2→A1(Cu=None)`, `C1→B2(Cu=None)`. -/
def chainScenario : List Record := [
  ⟨"A1", "Ocean", ["A1Cu"]⟩, ⟨"B1", "A1", ["None"]⟩,
  ⟨"B2", "A1", ["None"]⟩, ⟨"C1", "B2", ["None"]⟩]

/-- A permutation of `chainScenario`, used to witness order independence. -/
def chainScenarioShuffled : List Record := [
  ⟨"C1", "B2", ["None"]⟩, ⟨"A1", "Ocean", ["A1Cu"]⟩,
  ⟨"B2", "A1", ["None"]⟩, ⟨"B1", "A1", ["None"]⟩]

/-- `Passes tbl start i` holds when the chain of parent references rooted
at id `i` passes through `start`: either `i` is `start` itself, or some
record of the table has id `i` and its parent's chain passes through
`start`. -/
inductive Passes (tbl : List Record) (start : String) : String → Prop
  | base : Passes tbl start start
  | step (r : Record) : r ∈ tbl → Passes tbl start r.parent → Passes tbl start r.id

/-- `check_fields` of `src/propagator/utils/gis.py` (lines 366-403): with
`should_exist` set, a field name is "bad" when it is absent from the
table's existing fields, except for the virtual geometry field
`SHAPE@AREA`, which is never flagged; a non-empty bad list raises
`ValueError` (embedded as `Except.error` carrying the bad names). -/
def check_fields (existing_fields : List String) (fieldnames : List String)
    (should_exist : Bool) : Except (List String) Unit :=
  let bad_names := fieldnames.filter
    (fun nm => (should_exist != existing_fields.contains nm) && nm != "SHAPE@AREA")
  if bad_names.length > 0 then Except.error bad_names else Except.ok ()

/-- Modelled from the spec: the validation step of the absent engine
operations of `propagator/analysis.py` (§7 Error Handling) — required
columns (id, parent, requested value columns) are checked for existence
via `check_fields` before any computation proceeds; on failure the error
is signalled and the operation body `compute` is never evaluated. -/
def run_engine_op {α : Type} (existing_fields : List String)
    (required : List String) (compute : Unit → α) : Except (List String) α :=
  match check_fields existing_fields required true with
  | Except.error e => Except.error e
  | Except.ok _ => Except.ok (compute ())

/-! ### Generic fixpoint iteration

Both fixpoint loops of the engine (upstream trace, orphan pruning) iterate
a pass until it changes nothing; a pass that changes something strictly
decreases a natural measure, so iterating the measure of the start value
many times lands on a fixed point. -/

theorem iterate_hits_fixpoint {α : Type} (g : α → α) (m : α → Nat)
    (hdec : ∀ T, g T ≠ T → m (g T) < m T) :
    ∀ (k : Nat) (S : α), m S ≤ k → g (g^[k] S) = g^[k] S := by
  intro k
  induction k with
  | zero =>
    intro S hS
    by_contra hne
    have := hdec S hne
    omega
  | succ k ih =>
    intro S hS
    by_cases hfix : g S = S
    · rw [Function.iterate_fixed hfix]
      exact hfix
    · rw [Function.iterate_succ_apply]
      exact ih (g S) (by have := hdec S hfix; omega)

theorem filter_length_lt_of_ne {α : Type} (p : α → Bool) (l : List α)
    (h : l.filter p ≠ l) : (l.filter p).length < l.length := by
  have hsub := List.filter_sublist (p := p) l
  rcases Nat.lt_or_ge (l.filter p).length l.length with hlt | hge
  · exact hlt
  · exact absurd (hsub.eq_of_length (Nat.le_antisymm hsub.length_le hge)) h

/-! ### Orphan pruning -/

theorem pruneStep_dec (bottom : String) :
    ∀ T, pruneStep bottom T ≠ T → (pruneStep bottom T).length < T.length :=
  fun T h => filter_length_lt_of_ne _ T h

/-- The output of a full pruning run is a fixed point of the pruning pass. -/
theorem pruneStep_remove_orphans (tbl : List Record) (bottom : String) :
    pruneStep bottom (remove_orphan_subcatchments tbl bottom) =
      remove_orphan_subcatchments tbl bottom :=
  iterate_hits_fixpoint (pruneStep bottom) List.length (pruneStep_dec bottom)
    tbl.length tbl (Nat.le_refl _)

theorem remove_orphans_sublist (tbl : List Record) (bottom : String) :
    (remove_orphan_subcatchments tbl bottom).Sublist tbl := by
  show ((pruneStep bottom)^[tbl.length] tbl).Sublist tbl
  generalize tbl.length = k
  induction k with
  | zero => exact List.Sublist.refl tbl
  | succ k ih =>
    rw [Function.iterate_succ_apply']
    exact (List.filter_sublist _).trans ih

theorem remove_orphans_closed (tbl : List Record) (bottom : String) :
    ∀ r ∈ remove_orphan_subcatchments tbl bottom,
      r.parent = bottom ∨ r.parent ∈ ids (remove_orphan_subcatchments tbl bottom) := by
  intro r hr
  have hfix := pruneStep_remove_orphans tbl bottom
  have hp := List.filter_eq_self.mp hfix r hr
  simpa using hp

theorem ids_subset_of_subset {T S : List Record} (h : ∀ r ∈ T, r ∈ S) :
    ∀ i ∈ ids T, i ∈ ids S := by
  intro i hi
  rcases List.mem_map.mp hi with ⟨q, hq, rfl⟩
  exact List.mem_map.mpr ⟨q, h q hq, rfl⟩

/-- Any subset of the table closed under the retention rule survives the
whole pruning run: the output is the greatest retained subset. -/
theorem remove_orphans_greatest (tbl : List Record) (bottom : String)
    (T : List Record) (hsub : ∀ r ∈ T, r ∈ tbl)
    (hclosed : ∀ r ∈ T, r.parent = bottom ∨ r.parent ∈ ids T) :
    ∀ r ∈ T, r ∈ remove_orphan_subcatchments tbl bottom := by
  show ∀ r ∈ T, r ∈ (pruneStep bottom)^[tbl.length] tbl
  generalize tbl.length = k
  induction k with
  | zero => exact hsub
  | succ k ih =>
    intro r hr
    rw [Function.iterate_succ_apply']
    refine List.mem_filter.mpr ⟨ih r hr, ?_⟩
    rcases hclosed r hr with hb | hm
    · simp [hb]
    · have : r.parent ∈ ids ((pruneStep bottom)^[k] tbl) :=
        ids_subset_of_subset ih r.parent hm
      simp [this]

/-! ### Lookup -/

theorem lookup_mem {tbl : List Record} {i : String} {r : Record}
    (h : lookup tbl i = some r) : r ∈ tbl ∧ r.id = i := by
  refine ⟨List.mem_of_find?_eq_some h, ?_⟩
  have := List.find?_some h
  simpa using this

theorem lookup_id (tbl : List Record) (h : (ids tbl).Nodup)
    (r : Record) (hr : r ∈ tbl) : lookup tbl r.id = some r := by
  cases hfind : lookup tbl r.id with
  | none =>
    have hnone := List.find?_eq_none.mp hfind r hr
    simp at hnone
  | some q =>
    rcases lookup_mem hfind with ⟨hqmem, hqid⟩
    have : q = r := List.inj_on_of_nodup_map h hqmem hr hqid
    rw [this]

theorem lookup_eq_none {tbl : List Record} {i : String}
    (h : lookup tbl i = none) : ∀ r ∈ tbl, r.id ≠ i := by
  intro r hr
  have := List.find?_eq_none.mp h r hr
  simpa using this

theorem lookup_perm {tbl tbl' : List Record} (h : (ids tbl).Nodup)
    (hp : tbl.Perm tbl') (i : String) : lookup tbl i = lookup tbl' i := by
  cases h1 : lookup tbl i with
  | none =>
    cases h2 : lookup tbl' i with
    | none => rfl
    | some q =>
      rcases lookup_mem h2 with ⟨hqmem, hqid⟩
      exact absurd hqid (lookup_eq_none h1 q (hp.mem_iff.mpr hqmem))
  | some r =>
    rcases lookup_mem h1 with ⟨hrmem, hrid⟩
    cases h2 : lookup tbl' i with
    | none => exact absurd hrid (lookup_eq_none h2 r (hp.mem_iff.mp hrmem))
    | some q =>
      rcases lookup_mem h2 with ⟨hqmem, hqid⟩
      have : q = r :=
        List.inj_on_of_nodup_map h (hp.mem_iff.mpr hqmem) hrmem (by rw [hqid, hrid])
      rw [this]

/-! ### Unfolding equations for the fuelled walks -/

theorem fds_cons {tbl : List Record} {c : Nat} {ign : String} {f : Nat}
    {i : String} {r : Record} (hl : lookup tbl i = some r) :
    find_downstream_scores tbl c ign (f + 1) i =
      if getVal r c ≠ ign then some r
      else find_downstream_scores tbl c ign f r.parent := by
  simp only [find_downstream_scores, hl]

theorem fds_sent {tbl : List Record} {c : Nat} {ign : String} {f : Nat}
    {i : String} (hl : lookup tbl i = none) :
    find_downstream_scores tbl c ign (f + 1) i = none := by
  simp only [find_downstream_scores, hl]

theorem chainRecs_cons {tbl : List Record} {f : Nat} {i : String} {r : Record}
    (hl : lookup tbl i = some r) :
    chainRecs tbl (f + 1) i = r :: chainRecs tbl f r.parent := by
  simp only [chainRecs, hl]

theorem chainRecs_sent {tbl : List Record} {f : Nat} {i : String}
    (hl : lookup tbl i = none) : chainRecs tbl (f + 1) i = [] := by
  simp only [chainRecs, hl]

theorem reachesSentinel_cons {tbl : List Record} {f : Nat} {i : String}
    {r : Record} (hl : lookup tbl i = some r) :
    reachesSentinel tbl (f + 1) i = reachesSentinel tbl f r.parent := by
  simp only [reachesSentinel, hl]

theorem reachesSentinel_sent {tbl : List Record} {f : Nat} {i : String}
    (hl : lookup tbl i = none) : reachesSentinel tbl (f + 1) i = true := by
  simp only [reachesSentinel, hl]

/-! ### The downstream walk as the first valid record of the parent chain -/

theorem fds_eq_find (tbl : List Record) (c : Nat) (ign : String) :
    ∀ (f : Nat) (i : String),
      find_downstream_scores tbl c ign f i =
        (chainRecs tbl f i).find? (fun q => getVal q c != ign) := by
  intro f
  induction f with
  | zero => intro i; rfl
  | succ f ih =>
    intro i
    cases hl : lookup tbl i with
    | none => rw [fds_sent hl, chainRecs_sent hl]; rfl
    | some r =>
      rw [fds_cons hl, chainRecs_cons hl]
      by_cases hv : getVal r c ≠ ign
      · rw [if_pos hv, List.find?_cons_of_pos]
        simpa using hv
      · rw [if_neg hv, List.find?_cons_of_neg, ih]
        simpa using hv

/-! ### Fuel and chain length under the forest invariant -/

theorem reachesSentinel_succ {tbl : List Record} :
    ∀ {f : Nat} {i : String}, reachesSentinel tbl f i = true →
      reachesSentinel tbl (f + 1) i = true := by
  intro f
  induction f with
  | zero =>
    intro i h
    cases hl : lookup tbl i with
    | none => exact reachesSentinel_sent hl
    | some r => rw [reachesSentinel] at h; rw [hl] at h; simp at h
  | succ f ih =>
    intro i h
    cases hl : lookup tbl i with
    | none => exact reachesSentinel_sent hl
    | some r =>
      rw [reachesSentinel_cons hl] at h
      rw [reachesSentinel_cons hl]
      exact ih h

theorem reachesSentinel_le {tbl : List Record} {f F : Nat} {i : String}
    (h : reachesSentinel tbl f i = true) (hle : f ≤ F) :
    reachesSentinel tbl F i = true := by
  obtain ⟨d, rfl⟩ := Nat.exists_eq_add_of_le hle
  clear hle
  induction d with
  | zero => exact h
  | succ d ih => exact reachesSentinel_succ ih

theorem chainRecs_stable {tbl : List Record} :
    ∀ {f : Nat} {i : String}, reachesSentinel tbl f i = true →
      ∀ (F : Nat), f ≤ F → chainRecs tbl F i = chainRecs tbl f i := by
  intro f
  induction f with
  | zero =>
    intro i h F _
    rw [reachesSentinel] at h
    cases F with
    | zero => rfl
    | succ F =>
      cases hl : lookup tbl i with
      | none => rw [chainRecs_sent hl]; rfl
      | some r => rw [hl] at h; simp at h
  | succ f ih =>
    intro i h F hle
    cases F with
    | zero => omega
    | succ F =>
      cases hl : lookup tbl i with
      | none => rw [chainRecs_sent hl, chainRecs_sent hl]
      | some r =>
        rw [reachesSentinel_cons hl] at h
        rw [chainRecs_cons hl, chainRecs_cons hl, ih h F (by omega)]

theorem chainRecs_length_le (tbl : List Record) :
    ∀ (f : Nat) (i : String), (chainRecs tbl f i).length ≤ f := by
  intro f
  induction f with
  | zero => intro i; simp [chainRecs]
  | succ f ih =>
    intro i
    cases hl : lookup tbl i with
    | none => rw [chainRecs_sent hl]; simp
    | some r => rw [chainRecs_cons hl]; simpa using ih r.parent

theorem reachesSentinel_parent (tbl : List Record) (h : forestInv tbl)
    (r : Record) (hr : r ∈ tbl) :
    reachesSentinel tbl tbl.length r.parent = true := by
  obtain ⟨hnd, hreach⟩ := h
  have hid := hreach r hr
  have hlk := lookup_id tbl hnd r hr
  cases htl : tbl.length with
  | zero =>
    rw [List.length_eq_zero.mp htl] at hr
    simp at hr
  | succ n =>
    rw [htl, reachesSentinel_cons hlk] at hid
    exact reachesSentinel_le hid (Nat.le_succ n)

theorem chainLen_step (tbl : List Record) (h : forestInv tbl)
    (r : Record) (hr : r ∈ tbl) :
    chainLen tbl r.id = chainLen tbl r.parent + 1 := by
  have hlk := lookup_id tbl h.1 r hr
  have hpar := reachesSentinel_parent tbl h r hr
  unfold chainLen
  rw [chainRecs_cons hlk]
  rw [chainRecs_stable hpar (tbl.length + 1) (Nat.le_succ _)]
  simp

theorem chainLen_parent_le (tbl : List Record) (h : forestInv tbl)
    (r : Record) (hr : r ∈ tbl) : chainLen tbl r.parent ≤ tbl.length := by
  have hpar := reachesSentinel_parent tbl h r hr
  unfold chainLen
  rw [chainRecs_stable hpar (tbl.length + 1) (Nat.le_succ _)]
  exact chainRecs_length_le tbl tbl.length r.parent

/-! ### Parent chains and the upstream trace -/

theorem Passes_trans {tbl : List Record} {s m j : String}
    (h1 : Passes tbl m j) (h2 : Passes tbl s m) : Passes tbl s j := by
  induction h1 with
  | base => exact h2
  | step r hr _ ih => exact Passes.step r hr ih

theorem Passes_descent {tbl : List Record} (h : forestInv tbl) {s j : String}
    (hp : Passes tbl s j) : s = j ∨ chainLen tbl s < chainLen tbl j := by
  induction hp with
  | base => exact Or.inl rfl
  | step r hr _ ih =>
    right
    have hstep := chainLen_step tbl h r hr
    rcases ih with rfl | hlt
    · omega
    · omega

theorem no_self_ancestor (tbl : List Record) (h : forestInv tbl)
    (r : Record) (hr : r ∈ tbl) : ¬ Passes tbl r.id r.parent := by
  intro hp
  have hstep := chainLen_step tbl h r hr
  rcases Passes_descent h hp with heq | hlt
  · rw [heq] at hstep; omega
  · omega

theorem traceUp_sound (tbl : List Record) :
    ∀ (f : Nat) (i : String) (r : Record), r ∈ traceUp tbl f i →
      r ∈ tbl ∧ Passes tbl i r.parent := by
  intro f
  induction f with
  | zero => intro i r h; simp [traceUp] at h
  | succ f ih =>
    intro i r h
    unfold traceUp at h
    rcases List.mem_flatMap.mp h with ⟨d, hd, hmem⟩
    have hdt := List.mem_filter.mp hd
    have hdi : d.parent = i := by simpa using hdt.2
    rcases List.mem_cons.mp hmem with rfl | hrec
    · exact ⟨hdt.1, by rw [hdi]; exact Passes.base⟩
    · rcases ih d.id r hrec with ⟨hrt, hpass⟩
      refine ⟨hrt, Passes_trans hpass ?_⟩
      exact Passes.step d hdt.1 (by rw [hdi]; exact Passes.base)

theorem traceUp_child (tbl : List Record) :
    ∀ (f : Nat) (i : String) (q r : Record), q ∈ traceUp tbl f i →
      r ∈ tbl → r.parent = q.id → r ∈ traceUp tbl (f + 1) i := by
  intro f
  induction f with
  | zero => intro i q r h _ _; simp [traceUp] at h
  | succ f ih =>
    intro i q r hq hr hpar
    unfold traceUp at hq
    rcases List.mem_flatMap.mp hq with ⟨d, hd, hmem⟩
    show r ∈ traceUp tbl (f + 1 + 1) i
    unfold traceUp
    refine List.mem_flatMap.mpr ⟨d, hd, ?_⟩
    rcases List.mem_cons.mp hmem with rfl | hrec
    · refine List.mem_cons.mpr (Or.inr ?_)
      show r ∈ traceUp tbl (f + 1) q.id
      unfold traceUp
      exact List.mem_flatMap.mpr
        ⟨r, List.mem_filter.mpr ⟨hr, by simpa using hpar⟩, List.mem_cons_self r _⟩
    · exact List.mem_cons.mpr (Or.inr (ih d.id q r hrec hr hpar))

theorem traceUp_start_child (tbl : List Record) (f : Nat) (start : String)
    (r : Record) (hr : r ∈ tbl) (hpar : r.parent = start) :
    r ∈ traceUp tbl (f + 1) start := by
  unfold traceUp
  exact List.mem_flatMap.mpr
    ⟨r, List.mem_filter.mpr ⟨hr, by simpa using hpar⟩, List.mem_cons_self r _⟩

theorem traceUp_complete (tbl : List Record) (h : forestInv tbl) (start : String) :
    ∀ (k : Nat) (j : String) (r : Record), r ∈ tbl → r.parent = j →
      Passes tbl start j → chainLen tbl j ≤ k + chainLen tbl start →
      r ∈ traceUp tbl (k + 1) start := by
  intro k
  induction k with
  | zero =>
    intro j r hr hpar hp hlen
    rcases Passes_descent h hp with rfl | hlt
    · exact traceUp_start_child tbl 0 start r hr hpar
    · omega
  | succ k ih =>
    intro j r hr hpar hp hlen
    by_cases hjs : j = start
    · subst hjs
      exact traceUp_start_child tbl (k + 1) j r hr hpar
    · cases hp with
      | base => exact absurd rfl hjs
      | step q hq hpq =>
        have hstep := chainLen_step tbl h q hq
        have hq' : q ∈ traceUp tbl (k + 1) start :=
          ih q.parent q hq rfl hpq (by omega)
        exact traceUp_child tbl (k + 1) start q r hq' hr hpar

/-- Membership characterisation of the upstream trace: exactly the table
records, other than the one with id `start`, whose parent chain passes
through `start`. -/
theorem trace_upstream_mem_iff (tbl : List Record) (h : forestInv tbl)
    (start : String) (r : Record) :
    r ∈ trace_upstream tbl start ↔
      (r ∈ tbl ∧ r.id ≠ start ∧ Passes tbl start r.parent) := by
  constructor
  · intro hr
    rcases traceUp_sound tbl _ start r hr with ⟨hrt, hp⟩
    refine ⟨hrt, ?_, hp⟩
    intro heq
    refine no_self_ancestor tbl h r hrt ?_
    rw [heq]
    exact hp
  · rintro ⟨hrt, _, hp⟩
    show r ∈ traceUp tbl (tbl.length + 1) start
    exact traceUp_complete tbl h start tbl.length r.parent r hrt rfl hp
      (Nat.le_trans (chainLen_parent_le tbl h r hrt) (Nat.le_add_right _ _))

/-! ### Propagation reads only the original table: order independence -/

theorem fds_ext {tbl tbl' : List Record} {c : Nat} {ign : String}
    (hlk : ∀ i, lookup tbl i = lookup tbl' i) :
    ∀ (f : Nat) (i : String),
      find_downstream_scores tbl c ign f i = find_downstream_scores tbl' c ign f i := by
  intro f
  induction f with
  | zero => intro i; rfl
  | succ f ih =>
    intro i
    cases hl : lookup tbl' i with
    | none => rw [fds_sent (by rw [hlk]; exact hl), fds_sent hl]
    | some r =>
      rw [fds_cons (by rw [hlk]; exact hl), fds_cons hl, ih]

theorem propRow_ext {tbl tbl' : List Record} {c : Nat} {ign : String}
    (hlk : ∀ i, lookup tbl i = lookup tbl' i) (hlen : tbl.length = tbl'.length)
    (r : Record) : propRow tbl c ign r = propRow tbl' c ign r := by
  unfold propRow
  rw [hlen, fds_ext hlk]

/-! ### Frame lemmas: propagation touches only its own column -/

theorem getVal_setVal_ne (r : Record) {c c' : Nat} (h : c' ≠ c) (v : String) :
    getVal (setVal r c v) c' = getVal r c' := by
  unfold getVal setVal
  simp [List.getD, List.getElem?_set_ne (Ne.symm h)]

theorem propRow_id (tbl : List Record) (c : Nat) (ign : String) (r : Record) :
    (propRow tbl c ign r).id = r.id := by
  unfold propRow
  split
  · rfl
  · split <;> rfl

theorem propRow_parent (tbl : List Record) (c : Nat) (ign : String) (r : Record) :
    (propRow tbl c ign r).parent = r.parent := by
  unfold propRow
  split
  · rfl
  · split <;> rfl

theorem propRow_values_length (tbl : List Record) (c : Nat) (ign : String)
    (r : Record) : (propRow tbl c ign r).values.length = r.values.length := by
  unfold propRow
  split
  · rfl
  · split
    · simp [setVal]
    · rfl

theorem propRow_getVal_ne (tbl : List Record) (c : Nat) (ign : String)
    {c' : Nat} (h : c' ≠ c) (r : Record) :
    getVal (propRow tbl c ign r) c' = getVal r c' := by
  unfold propRow
  split
  · rfl
  · split
    · exact getVal_setVal_ne r h _
    · rfl

theorem propagate_ids (tbl : List Record) (c : Nat) (ign : String) :
    ids (propagate_scores tbl c ign) = ids tbl := by
  unfold propagate_scores ids
  rw [List.map_map]
  exact List.map_congr_left (fun r _ => propRow_id tbl c ign r)

theorem propagate_parents (tbl : List Record) (c : Nat) (ign : String) :
    (propagate_scores tbl c ign).map (·.parent) = tbl.map (·.parent) := by
  unfold propagate_scores
  rw [List.map_map]
  exact List.map_congr_left (fun r _ => propRow_parent tbl c ign r)

theorem propagate_frame (tbl : List Record) (c : Nat) (ign : String)
    {c' : Nat} (h : c' ≠ c) :
    (propagate_scores tbl c ign).map (fun r => getVal r c') =
      tbl.map (fun r => getVal r c') := by
  unfold propagate_scores
  rw [List.map_map]
  exact List.map_congr_left (fun r _ => propRow_getVal_ne tbl c ign h r)

theorem lookup_propagate (tbl : List Record) (c : Nat) (ign : String) (i : String) :
    lookup (propagate_scores tbl c ign) i =
      Option.map (propRow tbl c ign) (lookup tbl i) := by
  have hpred : ((fun r : Record => r.id == i) ∘ propRow tbl c ign) =
      (fun r : Record => r.id == i) := by
    funext r
    simp [Function.comp, propRow_id]
  unfold propagate_scores lookup
  rw [List.find?_map, hpred]

theorem fds_propagate (tbl : List Record) (c : Nat) (ign : String)
    {c' : Nat} (h : c' ≠ c) (ign' : String) :
    ∀ (f : Nat) (i : String),
      find_downstream_scores (propagate_scores tbl c ign) c' ign' f i =
        Option.map (propRow tbl c ign) (find_downstream_scores tbl c' ign' f i) := by
  intro f
  induction f with
  | zero => intro i; rfl
  | succ f ih =>
    intro i
    cases hl : lookup tbl i with
    | none =>
      rw [fds_sent (by rw [lookup_propagate, hl]; rfl), fds_sent hl]
      rfl
    | some r =>
      have hl2 : lookup (propagate_scores tbl c ign) i = some (propRow tbl c ign r) := by
        rw [lookup_propagate, hl]; rfl
      rw [fds_cons hl2, fds_cons hl]
      by_cases hv : getVal r c' ≠ ign'
      · rw [if_pos (by rw [propRow_getVal_ne tbl c ign h]; exact hv), if_pos hv]
        rfl
      · rw [if_neg (by rw [propRow_getVal_ne tbl c ign h]; exact hv), if_neg hv,
          propRow_parent]
        exact ih r.parent

theorem getVal_setVal_congr {r' r : Record} (c : Nat) (v : String)
    (hlen : r'.values.length = r.values.length)
    (hval : getVal r' c = getVal r c) :
    getVal (setVal r' c v) c = getVal (setVal r c v) c := by
  by_cases hc : c < r.values.length
  · unfold getVal setVal
    simp [List.getD, List.getElem?_set_self, hc, hlen ▸ hc]
  · have h1 : r.values.set c v = r.values := List.set_eq_of_length_le (by omega)
    have h2 : r'.values.set c v = r'.values := List.set_eq_of_length_le (by omega)
    unfold setVal
    rw [h1, h2]
    exact hval

theorem propRow_after_propagate_gen (tbl : List Record) (c : Nat) (ign : String)
    {c' : Nat} (h : c' ≠ c) (ign' : String) (r r' : Record)
    (hpar : r'.parent = r.parent) (hlen' : r'.values.length = r.values.length)
    (hval : getVal r' c' = getVal r c') :
    getVal (propRow (propagate_scores tbl c ign) c' ign' r') c' =
      getVal (propRow tbl c' ign' r) c' := by
  have hlen : (propagate_scores tbl c ign).length = tbl.length :=
    List.length_map tbl _
  unfold propRow
  rw [hlen, hval, hpar, fds_propagate tbl c ign h ign']
  by_cases hv : getVal r c' ≠ ign'
  · rw [if_pos hv, if_pos hv]
    exact hval
  · rw [if_neg hv, if_neg hv]
    cases hfd : find_downstream_scores tbl c' ign' (tbl.length + 1) r.parent with
    | none => exact hval
    | some q =>
      show getVal (setVal r' c' (getVal (propRow tbl c ign q) c')) c' =
        getVal (setVal r c' (getVal q c')) c'
      rw [propRow_getVal_ne tbl c ign h q]
      exact getVal_setVal_congr c' (getVal q c') hlen' hval

/-- Resolving column `c'` of a table whose column `c ≠ c'` was already
propagated gives, rowwise, the same `c'` value as resolving it on the
original table. -/
theorem propRow_after_propagate (tbl : List Record) (c : Nat) (ign : String)
    {c' : Nat} (h : c' ≠ c) (ign' : String) (r : Record) :
    getVal (propRow (propagate_scores tbl c ign) c' ign' (propRow tbl c ign r)) c' =
      getVal (propRow tbl c' ign' r) c' :=
  propRow_after_propagate_gen tbl c ign h ign' r (propRow tbl c ign r)
    (propRow_parent tbl c ign r) (propRow_values_length tbl c ign r)
    (propRow_getVal_ne tbl c ign h r)

/-! ### Edge re-marking -/

theorem mark_edges_ids (tbl : List Record) (e : String) :
    ids (mark_edges tbl e) = ids tbl := by
  unfold mark_edges ids markRow
  rw [List.map_map]
  refine List.map_congr_left ?_
  intro r _
  simp only [Function.comp_apply]
  split <;> rfl

theorem mark_edges_values (tbl : List Record) (e : String) :
    (mark_edges tbl e).map (·.values) = tbl.map (·.values) := by
  unfold mark_edges markRow
  rw [List.map_map]
  refine List.map_congr_left ?_
  intro r _
  simp only [Function.comp_apply]
  split <;> rfl

/-! ### Validation of the models against the in-repo test expectations -/

/-- `test_propagate_scores_complex_1_columns`: the model reproduces the
expected table. -/
theorem validates_propagate_complex :
    propagate_scores complexSubcatchments 0 "None" = complexExpected := by decide

/-- `test_propagate_scores_simple_2_columns`: propagating Pb then Cu
reproduces the expected table. -/
theorem validates_propagate_simple_two_columns :
    propagate_scores (propagate_scores simpleSubcatchments 1 "None") 0 "None" =
      simpleBothExpected := by decide

/-- `Test_trace_upstream.test_right_fork`: the model reproduces the
expected subset and order. -/
theorem validates_trace_right_fork :
    trace_upstream simpleSubcatchments "A2" = expectedRightFork := by decide

/-- `test_mark_edges`: the model reproduces the expected table. -/
theorem validates_mark_edges :
    mark_edges doctoredSubcatchments "EDGE" = markEdgesExpected := by decide

/-- The spec's concrete chain scenario: B1, B2 and C1 all resolve to A1's
Cu value, the walk skipping B2's own ignored value. -/
theorem validates_spec_chain_scenario :
    propagate_scores chainScenario 0 "None" = [
      ⟨"A1", "Ocean", ["A1Cu"]⟩, ⟨"B1", "A1", ["A1Cu"]⟩,
      ⟨"B2", "A1", ["A1Cu"]⟩, ⟨"C1", "B2", ["A1Cu"]⟩] := by decide

/-- The simple fixture satisfies the forest invariant. -/
theorem validates_forest_inv_simple : forestInv simpleSubcatchments := by decide

/-! ### Claims -/

/-- C1: for a table satisfying the forest invariant, `propagate_scores`
leaves every valid value unchanged; an ignored value is replaced by the
original value of the first record on the parent chain starting at the
record's parent whose value is valid, skipping ignored records; when the
chain reaches a terminal sentinel with no valid value found, the record
(hence its ignored value) is unchanged. -/
theorem propagate_scores_nearest_valid (tbl : List Record) (c : Nat)
    (ign : String) (h : forestInv tbl) :
    propagate_scores tbl c ign = tbl.map (fun r =>
      if getVal r c ≠ ign then r
      else
        match (chainRecs tbl (tbl.length + 1) r.parent).find?
            (fun q => getVal q c != ign) with
        | some q => setVal r c (getVal q c)
        | none => r) := by
  unfold propagate_scores
  refine List.map_congr_left ?_
  intro r _
  unfold propRow
  rw [fds_eq_find]

/-- Witness for C1 at the spec's concrete four-row chain. -/
theorem propagate_scores_nearest_valid_witness :
    propagate_scores chainScenario 0 "None" = chainScenario.map (fun r =>
      if getVal r 0 ≠ "None" then r
      else
        match (chainRecs chainScenario (chainScenario.length + 1) r.parent).find?
            (fun q => getVal q 0 != "None") with
        | some q => setVal r 0 (getVal q 0)
        | none => r) :=
  propagate_scores_nearest_valid chainScenario 0 "None" (by decide)

/-- C2: `remove_orphan_subcatchments` keeps rows unchanged in their
original order (a sublist), its output is closed under the retention rule
(every kept record's parent is the bottom sentinel or a kept id), it
contains every retention-closed subset of the table (greatest such
subset), and on the doctored 18-row fixture it keeps exactly the expected
eight rows. -/
theorem remove_orphan_subcatchments_spec (tbl : List Record) (bottom : String) :
    ((remove_orphan_subcatchments tbl bottom).Sublist tbl ∧
      (∀ r ∈ remove_orphan_subcatchments tbl bottom,
        r.parent = bottom ∨ r.parent ∈ ids (remove_orphan_subcatchments tbl bottom)) ∧
      (∀ T : List Record, (∀ r ∈ T, r ∈ tbl) →
        (∀ r ∈ T, r.parent = bottom ∨ r.parent ∈ ids T) →
        ∀ r ∈ T, r ∈ remove_orphan_subcatchments tbl bottom)) ∧
    remove_orphan_subcatchments doctoredSubcatchments "Ocean" = orphansExpected :=
  ⟨⟨remove_orphans_sublist tbl bottom, remove_orphans_closed tbl bottom,
    remove_orphans_greatest tbl bottom⟩, by decide⟩

/-- Witness for C2: the retention-closed expected subset survives pruning. -/
theorem remove_orphan_subcatchments_spec_witness :
    (⟨"A1", "Ocean", ["A1_x", "A1_y"]⟩ : Record) ∈
      remove_orphan_subcatchments doctoredSubcatchments "Ocean" :=
  (remove_orphan_subcatchments_spec doctoredSubcatchments "Ocean").1.2.2
    orphansExpected (by decide) (by decide) _ (by decide)

/-- C3 counterexample: the engine's upstream trace of the simple fixture
from A1 is the depth-first list the in-repo test expects, and that list is
not a sublist of the input table — the claimed preservation of the
original relative row order fails (G1 is emitted before F2, while the
table lists F2 first). -/
theorem trace_upstream_order_counterexample :
    trace_upstream simpleSubcatchments "A1" = expectedLeftFork ∧
    ¬ (trace_upstream simpleSubcatchments "A1").Sublist simpleSubcatchments :=
  ⟨by decide, by decide⟩

/-- Witness for the amended C3 at the B1 row of the simple fixture. -/
theorem trace_upstream_mem_iff_witness :
    (⟨"B1", "A1", ["None", "B1_y"]⟩ : Record) ∈ trace_upstream simpleSubcatchments "A1" ↔
      ((⟨"B1", "A1", ["None", "B1_y"]⟩ : Record) ∈ simpleSubcatchments ∧
        "B1" ≠ "A1" ∧ Passes simpleSubcatchments "A1" "A1") :=
  trace_upstream_mem_iff simpleSubcatchments (by decide) "A1"
    ⟨"B1", "A1", ["None", "B1_y"]⟩

/-- C4: `mark_edges` removes no rows, changes no id and no values, leaves
matched parents untouched, and rewrites exactly the parents matching no id
present in the table to the edge sentinel. -/
theorem mark_edges_spec (tbl : List Record) (e : String) :
    (mark_edges tbl e).length = tbl.length ∧
    ids (mark_edges tbl e) = ids tbl ∧
    (mark_edges tbl e).map (·.values) = tbl.map (·.values) ∧
    ∀ i : Nat, Option.map (·.parent) (mark_edges tbl e)[i]? =
      Option.map (fun r => if r.parent ∈ ids tbl then r.parent else e) tbl[i]? := by
  refine ⟨List.length_map tbl _, mark_edges_ids tbl e, mark_edges_values tbl e, ?_⟩
  intro i
  unfold mark_edges
  rw [List.getElem?_map (markRow (ids tbl) e) tbl i]
  cases tbl[i]? with
  | none => rfl
  | some r =>
    by_cases hm : r.parent ∈ ids tbl <;> simp [markRow, hm]

/-- C5: on a table satisfying the forest invariant, propagating a column
of any permutation of the table yields the same multiset of (id, resolved
value) pairs — per-row results are independent of row processing order. -/
theorem propagate_scores_order_independent (tbl tbl' : List Record) (c : Nat)
    (ign : String) (h : forestInv tbl) (hp : tbl.Perm tbl') :
    ((propagate_scores tbl' c ign).map (fun r => (r.id, getVal r c))).Perm
      ((propagate_scores tbl c ign).map (fun r => (r.id, getVal r c))) := by
  have hlk : ∀ i, lookup tbl i = lookup tbl' i := lookup_perm h.1 hp
  have hlen : tbl.length = tbl'.length := hp.length_eq
  have hrow : propRow tbl' c ign = propRow tbl c ign :=
    funext fun r => (propRow_ext hlk hlen r).symm
  unfold propagate_scores
  rw [hrow]
  exact ((hp.map (propRow tbl c ign)).symm).map _

/-- Witness for C5 on a shuffled copy of the spec's chain scenario. -/
theorem propagate_scores_order_independent_witness :
    ((propagate_scores chainScenarioShuffled 0 "None").map
        (fun r => (r.id, getVal r 0))).Perm
      ((propagate_scores chainScenario 0 "None").map
        (fun r => (r.id, getVal r 0))) :=
  propagate_scores_order_independent chainScenario chainScenarioShuffled 0 "None"
    (by decide) (by decide)

/-- C6: pruning its own output again changes nothing — the output is a
fixpoint of `remove_orphan_subcatchments`. -/
theorem remove_orphan_subcatchments_idempotent (tbl : List Record) (bottom : String) :
    remove_orphan_subcatchments (remove_orphan_subcatchments tbl bottom) bottom =
      remove_orphan_subcatchments tbl bottom := by
  show (pruneStep bottom)^[(remove_orphan_subcatchments tbl bottom).length]
      (remove_orphan_subcatchments tbl bottom) = remove_orphan_subcatchments tbl bottom
  exact Function.iterate_fixed (pruneStep_remove_orphans tbl bottom) _

/-- C7: applying `mark_edges` twice with the same arguments equals
applying it once. -/
theorem mark_edges_idempotent (tbl : List Record) (e : String) :
    mark_edges (mark_edges tbl e) e = mark_edges tbl e := by
  have hids : ids (mark_edges tbl e) = ids tbl := mark_edges_ids tbl e
  show (mark_edges tbl e).map (markRow (ids (mark_edges tbl e)) e) = mark_edges tbl e
  rw [hids]
  show (tbl.map (markRow (ids tbl) e)).map (markRow (ids tbl) e) =
    tbl.map (markRow (ids tbl) e)
  rw [List.map_map]
  refine List.map_congr_left ?_
  intro r _
  simp only [Function.comp_apply]
  unfold markRow
  by_cases hc : r.parent ∈ ids tbl
  · simp [hc]
  · by_cases he : e ∈ ids tbl <;> simp [hc, he]

/-- C8: propagating column A changes no id, no parent and no other value
column, and propagating A then B gives each column the values of its own
independent propagation. -/
theorem propagate_scores_column_independent (tbl : List Record) (A B : Nat)
    (ign : String) (hAB : A ≠ B) :
    ids (propagate_scores tbl A ign) = ids tbl ∧
    (propagate_scores tbl A ign).map (·.parent) = tbl.map (·.parent) ∧
    (∀ c, c ≠ A →
      (propagate_scores tbl A ign).map (fun r => getVal r c) =
        tbl.map (fun r => getVal r c)) ∧
    (propagate_scores (propagate_scores tbl A ign) B ign).map (fun r => getVal r B) =
      (propagate_scores tbl B ign).map (fun r => getVal r B) ∧
    (propagate_scores (propagate_scores tbl A ign) B ign).map (fun r => getVal r A) =
      (propagate_scores tbl A ign).map (fun r => getVal r A) := by
  have emap : ∀ (L : List Record) (c : Nat) (g : Record → String),
      (propagate_scores L c ign).map g = L.map (fun r => g (propRow L c ign r)) := by
    intro L c g
    unfold propagate_scores
    rw [List.map_map]
    rfl
  refine ⟨propagate_ids tbl A ign, propagate_parents tbl A ign,
    (fun c hc => propagate_frame tbl A ign hc), ?_, ?_⟩
  · rw [emap (propagate_scores tbl A ign) B (fun r => getVal r B)]
    rw [emap tbl A (fun r => getVal (propRow (propagate_scores tbl A ign) B ign r) B)]
    rw [emap tbl B (fun r => getVal r B)]
    refine List.map_congr_left ?_
    intro r _
    exact propRow_after_propagate tbl A ign (Ne.symm hAB) ign r
  · exact propagate_frame (propagate_scores tbl A ign) B ign hAB

/-- Witness for C8: propagating Pb first leaves the Cu propagation of the
simple fixture unaffected. -/
theorem propagate_scores_column_independent_witness :
    (propagate_scores (propagate_scores simpleSubcatchments 1 "None") 0 "None").map
        (fun r => getVal r 0) =
      (propagate_scores simpleSubcatchments 0 "None").map (fun r => getVal r 0) :=
  (propagate_scores_column_independent simpleSubcatchments 1 0 "None" (by decide)).2.2.2.1

/-- C9 counterexample: an invocation whose required column is the virtual
geometry field SHAPE@AREA, absent from the table's fields, is not signalled
as a validation failure — `check_fields` exempts that name — and the
computation proceeds. -/
theorem check_fields_shape_area_counterexample :
    ¬ ("SHAPE@AREA" ∈ (["ID", "DS_ID"] : List String)) ∧
    run_engine_op ["ID", "DS_ID"] ["SHAPE@AREA"] (fun _ => (0 : Nat)) = Except.ok 0 :=
  ⟨by decide, rfl⟩

/-- C9 amended: a required column that is missing from the table's fields
and is not the exempted virtual field SHAPE@AREA makes the operation
signal a validation failure carrying the bad names, and no result is
produced. -/
theorem run_engine_op_missing_column_fails (fields required : List String)
    {α : Type} (compute : Unit → α) (c : String) (hc : c ∈ required)
    (hmem : c ∉ fields) (hsa : c ≠ "SHAPE@AREA") :
    ∃ bad, run_engine_op fields required compute = Except.error bad ∧ c ∈ bad := by
  have h1 : fields.contains c = false := by simpa using hmem
  have hpred : (((true : Bool) != fields.contains c) && (c != "SHAPE@AREA")) = true := by
    rw [h1]
    simp [hsa]
  refine ⟨required.filter
    (fun nm => ((true : Bool) != fields.contains nm) && nm != "SHAPE@AREA"), ?_,
    List.mem_filter.mpr ⟨hc, hpred⟩⟩
  have hne : required.filter
      (fun nm => ((true : Bool) != fields.contains nm) && nm != "SHAPE@AREA") ≠ [] :=
    List.ne_nil_of_mem (List.mem_filter.mpr ⟨hc, hpred⟩)
  show (match (if 0 < (required.filter
      (fun nm => ((true : Bool) != fields.contains nm) && nm != "SHAPE@AREA")).length
        then Except.error (required.filter
          (fun nm => ((true : Bool) != fields.contains nm) && nm != "SHAPE@AREA"))
        else Except.ok ()) with
    | Except.error e => Except.error e
    | Except.ok _ => Except.ok (compute ())) = _
  rw [if_pos (List.length_pos.mpr hne)]

/-- Witness for the amended C9. -/
theorem run_engine_op_missing_column_fails_witness :
    ∃ bad, run_engine_op ["geometry"] ["ID"] (fun _ => (42 : Nat)) =
      Except.error bad ∧ "ID" ∈ bad :=
  run_engine_op_missing_column_fails ["geometry"] ["ID"] (fun _ => (42 : Nat)) "ID"
    (by decide) (by decide) (by decide)

/-- C10: the helper returns the entire first record, walking parent
references from the given record, whose value in the requested column is
valid; on the simple fixture, starting at G1 on the Pb column it returns
E1's full row, skipping F1. -/
theorem find_downstream_scores_spec :
    (∀ (tbl : List Record) (c : Nat) (ign : String) (f : Nat) (i : String),
      find_downstream_scores tbl c ign f i =
        (chainRecs tbl f i).find? (fun q => getVal q c != ign)) ∧
    find_downstream_scores simpleSubcatchments 1 "None"
        (simpleSubcatchments.length + 1) "G1" =
      some ⟨"E1", "D1", ["None", "E1_y"]⟩ :=
  ⟨fds_eq_find, by decide⟩

end Propagator
